import Mathlib

/-!
Shallow embedding of the core of the rare-gen-server publisher
(admission pipeline, job store, UTXO pool manager, batch collector and
broadcaster, token-bucket rate limiter, JSON canonicalizer), translated
from the TypeScript/JavaScript sources:

* `src/src/routes/validation.ts` — intent validation (timestamp, nonce
  pre-check, signature, signer registry) and `recordNonceUsage`;
* `src/src/db/index.ts` — `recordNonce` (INSERT ... ON CONFLICT DO
  NOTHING), `createPublishJob` (INSERT with a fresh job id; the
  `record_hash` column is UNIQUE per migration 001);
* `src/src/api.ts` — the POST /v1/publish admission flow;
* the batch worker (`collectBatch`, `claimNextJob`, `reserveUTXO`,
  `markUTXODirty`, `releaseUTXO`, `processJob`, `broadcasterLoop`,
  `unstickJobs`);
* `src/src/worker.ts` — the single-job worker's `reserveUTXO`;
* `src/dist/token-bucket.js` — the `TokenBucket` class;
* the crypto utilities — `canonicalizeJSON` (sortKeys + JSON.stringify),
  `hashJSON`.

Database tables are modelled as Lean lists of row structures; SQL
statements become pure functions on those lists.  Times are integer
milliseconds (`Nat`/`Int`); JavaScript numbers inside the token bucket
are modelled as exact rationals (`ℚ`).
-/

/-! ## Admission pipeline state (tables `nonces` and `publish_jobs`)

The `nonces` table content is the list of (pubkey_hex, nonce) pairs; the
`publish_jobs` table content is the list of (job_id, record_hash) pairs.
`record_hash` is UNIQUE and `(pubkey_hex, nonce)` is UNIQUE
(migration 001_initial_schema). -/

structure AdmissionState where
  nonces : List (String × String)
  jobs : List (String × String)
deriving DecidableEq

/-- `SELECT id FROM nonces WHERE pubkey_hex = $1 AND nonce = $2` returns a
nonempty row set (validation.ts, step "Verify nonce not used"). -/
def nonceExists (s : AdmissionState) (pk n : String) : Bool :=
  s.nonces.contains (pk, n)

/-- `recordNonce` / `recordNonceUsage`:
`INSERT INTO nonces ... ON CONFLICT DO NOTHING` — a duplicate pair leaves
the table unchanged and reports no error (db/index.ts, validation.ts). -/
def recordNonce (s : AdmissionState) (pk n : String) : AdmissionState :=
  if nonceExists s pk n then s else { s with nonces := (pk, n) :: s.nonces }

/-- `createPublishJob` (db/index.ts): a fresh `job_id` is generated by the
caller-side expression `job_(Date.now())_(random)`; the INSERT carries no
conflict clause, so a duplicate `record_hash` raises the UNIQUE violation
(modelled as `Except.error`). -/
def createPublishJob (s : AdmissionState) (jobId rhash : String) :
    Except Unit (AdmissionState × String) :=
  if (s.jobs.map Prod.snd).contains rhash then .error ()
  else .ok ({ s with jobs := (jobId, rhash) :: s.jobs }, jobId)

/-- Outcome of one POST /v1/publish admission, as surfaced by api.ts:
202 accepted with a job id, 400 with the replay-detected validation
error, or 500 internal error (the endpoint catch-all). -/
inductive PublishOutcome where
  | accepted (jobId : String)
  | replayDetected
  | internalError
deriving DecidableEq

/-- The admission flow of api.ts POST /v1/publish for an intent that
passes the schema, timestamp and signature checks: validation's nonce
pre-check (SELECT), then `recordNonceUsage`, then `createPublishJob`.
A thrown database error is caught by the endpoint and becomes a 500. -/
def handlePublish (s : AdmissionState) (pk n rhash jobId : String) :
    AdmissionState × PublishOutcome :=
  if nonceExists s pk n then (s, .replayDetected)
  else
    let s1 := recordNonce s pk n
    match createPublishJob s1 jobId rhash with
    | .ok (s2, j) => (s2, .accepted j)
    | .error _ => (s1, .internalError)

/-! ### Interleaved execution of two concurrent admissions

Each admission suspends at every database round-trip; the two database
operations that matter for replay protection are the nonce pre-check
(validation step 3) and the commit (`recordNonceUsage` +
`createPublishJob`).  A schedule is a list of booleans choosing which
admission performs its next step. -/

structure PublishTask where
  pk : String
  nonce : String
  rhash : String
  jobId : String
  pc : Nat
  res : Option PublishOutcome
deriving DecidableEq

/-- One database step of an in-flight admission: `pc = 0` runs the nonce
pre-check, `pc = 1` runs the commit (nonce insert + job insert). -/
def stepTask (s : AdmissionState) (t : PublishTask) :
    AdmissionState × PublishTask :=
  match t.pc with
  | 0 =>
    if nonceExists s t.pk t.nonce then
      (s, { t with pc := 2, res := some .replayDetected })
    else (s, { t with pc := 1 })
  | 1 =>
    let s1 := recordNonce s t.pk t.nonce
    (match createPublishJob s1 t.jobId t.rhash with
     | .ok (s2, j) => (s2, { t with pc := 2, res := some (.accepted j) })
     | .error _ => (s1, { t with pc := 2, res := some .internalError }))
  | _ => (s, t)

/-- Run two admissions `a` and `b` under an interleaving schedule
(`false` steps `a`, `true` steps `b`). -/
def runSched (s : AdmissionState) (a b : PublishTask) :
    List Bool → AdmissionState × PublishTask × PublishTask
  | [] => (s, a, b)
  | false :: rest =>
    let p := stepTask s a
    runSched p.1 p.2 b rest
  | true :: rest =>
    let p := stepTask s b
    runSched p.1 a p.2 rest

/-- A fresh two-phase admission task for (pk, nonce, record hash, job id). -/
def mkTask (pk n rhash jobId : String) : PublishTask :=
  ⟨pk, n, rhash, jobId, 0, none⟩

/-! ## Intent validation (validation.ts `validatePublishIntent`)

The function takes the payload after the schema check has passed.  The
two registry queries may throw (e.g. the table does not exist); the code
catches the error, logs a warning and continues, so a query outcome is
an `Except`.  The signature verifier is the external secp256k1 library;
only its boolean verdict enters the control flow. -/

def validatePublishIntent (nowMs tsMs : Int)
    (nonceQuery : Except Unit (List Nat)) (sigValid : Bool)
    (keyQuery : Except Unit (List Nat)) : Bool × Option String :=
  -- step 2: `ageMs = now - timestamp; if (ageMs > maxAgeSec * 1000)` reject
  if nowMs - tsMs > 600 * 1000 then (false, some "Timestamp too old")
  else
    -- step 3: nonce pre-check; a thrown query is warned about and skipped
    let nonceRejected :=
      match nonceQuery with
      | .ok rows => decide (rows.length > 0)
      | .error _ => false
    if nonceRejected then
      (false, some "Nonce already used (replay attack detected)")
    else if !sigValid then (false, some "Signature verification failed")
    else
      -- step 5: signer registry lookup; a thrown query is skipped as well
      let signerRejected :=
        match keyQuery with
        | .ok rows => decide (rows.length = 0)
        | .error _ => false
      if signerRejected then (false, some "Signer not registered or revoked")
      else (true, none)

/-! ## Job rows and the batch collector (batch worker `collectBatch`)

A `publish_jobs` row, restricted to the columns the batch worker touches.
`id` is the SERIAL primary key, `createdAt` the `created_at` column in
milliseconds. -/

structure PJob where
  id : Nat
  createdAt : Nat
  status : String
  batchId : Option String
  batchSeq : Option Nat
  sendingStartedAt : Option Nat
  errorCode : Option String
  errorDetail : Option String
  txid : Option String
deriving DecidableEq

/-- `ORDER BY created_at ASC` on job rows. -/
def jobCreatedLe (a b : PJob) : Prop := a.createdAt ≤ b.createdAt

instance : DecidableRel jobCreatedLe := fun a b => by
  unfold jobCreatedLe; exact inferInstance

instance : IsTotal PJob jobCreatedLe := ⟨fun a b => Nat.le_total a.createdAt b.createdAt⟩

instance : IsTrans PJob jobCreatedLe := ⟨fun _ _ _ => Nat.le_trans⟩

/-- `ORDER BY id` on job rows. -/
def jobIdLe (a b : PJob) : Prop := a.id ≤ b.id

instance : DecidableRel jobIdLe := fun a b => by
  unfold jobIdLe; exact inferInstance

instance : IsTotal PJob jobIdLe := ⟨fun a b => Nat.le_total a.id b.id⟩

instance : IsTrans PJob jobIdLe := ⟨fun _ _ _ => Nat.le_trans⟩

/-- `ORDER BY batch_seq ASC` on job rows. -/
def jobSeqLe (a b : PJob) : Prop := a.batchSeq.getD 0 ≤ b.batchSeq.getD 0

instance : DecidableRel jobSeqLe := fun a b => by
  unfold jobSeqLe; exact inferInstance

instance : IsTotal PJob jobSeqLe :=
  ⟨fun a b => Nat.le_total (a.batchSeq.getD 0) (b.batchSeq.getD 0)⟩

instance : IsTrans PJob jobSeqLe := ⟨fun _ _ _ => Nat.le_trans⟩

/-- The ids of the rows the collector claims, in `batch_seq` order:
`to_claim` = up to `limit` queued jobs `ORDER BY created_at ASC`, then
`numbered` = `row_number() OVER (ORDER BY id)` — the primary-key ids of
the claimed rows sorted by id. -/
def collectIds (limit : Nat) (jobs : List PJob) : List Nat :=
  (List.insertionSort jobIdLe
      ((List.insertionSort jobCreatedLe
          (jobs.filter fun j => j.status == "queued")).take limit)).map
    (fun j => j.id)

/-- The collector's claim query: the UPDATE joins `numbered` on `id` and
writes status, batch id and `batch_seq` = the row's rank in `numbered`. -/
def collectBatch (bid : String) (limit : Nat) (jobs : List PJob) :
    List PJob :=
  jobs.map fun j =>
    if (collectIds limit jobs).contains j.id then
      { j with status := "processing_batch", batchId := some bid,
               batchSeq := some ((collectIds limit jobs).indexOf j.id + 1) }
    else j

/-- `claimNextJob` (batch worker): the lowest-`batch_seq` job of the batch
still in `processing_batch` moves to `sending` with
`sending_started_at = NOW()`. -/
def claimNextJob (now : Nat) (bid : String) (jobs : List PJob) :
    List PJob × Option PJob :=
  let cands :=
    List.insertionSort jobSeqLe
      (jobs.filter (fun j => j.batchId == some bid && j.status == "processing_batch"))
  match cands with
  | [] => (jobs, none)
  | j :: _ =>
    let j' := { j with status := "sending", sendingStartedAt := some now }
    (jobs.map fun x => if x.id == j.id then j' else x, some j')

/-- `unstickJobs` (batch worker): any `sending` job whose
`sending_started_at` is older than the 2-minute TTL reverts to
`processing_batch` with `sending_started_at` cleared. -/
def unstickJobs (now : Nat) (jobs : List PJob) : List PJob :=
  jobs.map fun j =>
    if j.status == "sending" &&
        (match j.sendingStartedAt with
         | some t => decide (t + 2 * 60 * 1000 < now)
         | none => false) then
      { j with status := "processing_batch", sendingStartedAt := none }
    else j

/-! ## UTXO pool (table `utxos`, batch worker and worker.ts `reserveUTXO`) -/

structure Utxo where
  id : Nat
  purpose : String
  status : String
  satoshis : Nat
  createdAt : Nat
  dirty : Bool
  reservedAt : Option Nat
  reservedUntil : Option Nat
  spentByTxid : Option String
deriving DecidableEq

/-- The batch worker's sweep:
`UPDATE utxos SET status='available', reserved_at=NULL, reserved_until=NULL
 WHERE status='reserved' AND reserved_until < NOW()`
(a NULL `reserved_until` does not match the comparison). -/
def releaseExpired (now : Nat) (pool : List Utxo) : List Utxo :=
  pool.map fun u =>
    if u.status == "reserved" &&
        (match u.reservedUntil with
         | some t => decide (t < now)
         | none => false) then
      { u with status := "available", reservedAt := none, reservedUntil := none }
    else u

/-- Selectability in the batch worker's reservation query:
`purpose = 'publish' AND status = 'available' AND (dirty = FALSE OR dirty IS NULL)`. -/
def eligible (u : Utxo) : Bool :=
  u.purpose == "publish" && u.status == "available" && !u.dirty

/-- `ORDER BY satoshis ASC, created_at ASC` as a relation on rows. -/
def satsCreatedLe (a b : Utxo) : Prop :=
  a.satoshis < b.satoshis ∨ (a.satoshis = b.satoshis ∧ a.createdAt ≤ b.createdAt)

instance : DecidableRel satsCreatedLe := fun a b => by
  unfold satsCreatedLe; exact inferInstance

instance : IsTotal Utxo satsCreatedLe := by
  constructor
  intro a b
  unfold satsCreatedLe
  rcases Nat.lt_trichotomy a.satoshis b.satoshis with h | h | h
  · exact Or.inl (Or.inl h)
  · rcases Nat.le_total a.createdAt b.createdAt with h' | h'
    · exact Or.inl (Or.inr ⟨h, h'⟩)
    · exact Or.inr (Or.inr ⟨h.symm, h'⟩)
  · exact Or.inr (Or.inl h)

instance : IsTrans Utxo satsCreatedLe := by
  constructor
  intro a b c hab hbc
  unfold satsCreatedLe at *
  rcases hab with h1 | ⟨h1, h1'⟩
  · rcases hbc with h2 | ⟨h2, _⟩
    · exact Or.inl (Nat.lt_trans h1 h2)
    · exact Or.inl (h2 ▸ h1)
  · rcases hbc with h2 | ⟨h2, h2'⟩
    · exact Or.inl (h1 ▸ h2)
    · exact Or.inr ⟨h1.trans h2, Nat.le_trans h1' h2'⟩

/-- `ORDER BY created_at ASC` on UTXO rows (worker.ts). -/
def utxoCreatedLe (a b : Utxo) : Prop := a.createdAt ≤ b.createdAt

instance : DecidableRel utxoCreatedLe := fun a b => by
  unfold utxoCreatedLe; exact inferInstance

instance : IsTotal Utxo utxoCreatedLe := ⟨fun a b => Nat.le_total a.createdAt b.createdAt⟩

instance : IsTrans Utxo utxoCreatedLe := ⟨fun _ _ _ => Nat.le_trans⟩

/-- The UTXO lease: `reserved_until = NOW() + INTERVAL '5 minutes'`. -/
def leaseMs : Nat := 5 * 60 * 1000

/-- The batch worker's `reserveUTXO`: sweep expired reservations, then
reserve the `LIMIT 1` row of the eligible set ordered by
(satoshis, created_at), with a 5-minute lease.  Returns the updated pool
and the RETURNING row. -/
def reserveUTXOBatch (now : Nat) (pool : List Utxo) :
    List Utxo × Option Utxo :=
  match List.insertionSort satsCreatedLe ((releaseExpired now pool).filter eligible) with
  | [] => (releaseExpired now pool, none)
  | u :: _ =>
    ((releaseExpired now pool).map fun v =>
        if v.id == u.id then
          { u with status := "reserved", reservedAt := some now,
                   reservedUntil := some (now + leaseMs) }
        else v,
     some { u with status := "reserved", reservedAt := some now,
                   reservedUntil := some (now + leaseMs) })

/-- `reserveUTXO` of worker.ts (the single-job BullMQ worker): no sweep,
no dirty filter, ordered by `created_at` only, and no `reserved_until`. -/
def reserveUTXOWorker (now : Nat) (pool : List Utxo) :
    List Utxo × Option Utxo :=
  let cands :=
    List.insertionSort utxoCreatedLe
      (pool.filter fun u => u.purpose == "publish" && u.status == "available")
  match cands with
  | [] => (pool, none)
  | u :: _ =>
    let u' := { u with status := "reserved", reservedAt := some now }
    (pool.map fun v => if v.id == u.id then u' else v, some u')

/-- The behaviour §4.5 ascribes to `Reserve()`: expired leases are
released first; the reservation, when any, goes to an eligible row of the
swept pool that is minimal for (satoshis, created_at) and is stamped
`reserved` with a fresh 5-minute lease; `null` comes back exactly when
the swept pool has no eligible row. -/
def ReserveBehaves (reserve : Nat → List Utxo → List Utxo × Option Utxo) : Prop :=
  ∀ now pool,
    ((reserve now pool).2 = none ↔ (releaseExpired now pool).filter eligible = [])
    ∧ ∀ u, (reserve now pool).2 = some u →
        u.status = "reserved" ∧ u.reservedAt = some now
        ∧ u.reservedUntil = some (now + leaseMs)
        ∧ ∃ v ∈ (releaseExpired now pool).filter eligible,
            u = { v with status := "reserved", reservedAt := some now,
                         reservedUntil := some (now + leaseMs) }
            ∧ ∀ w ∈ (releaseExpired now pool).filter eligible, satsCreatedLe v w

/-- `markUTXOSpent` (batch worker). -/
def markUTXOSpent (pool : List Utxo) (uid : Nat) (txid : String) :
    List Utxo :=
  pool.map fun u =>
    if u.id == uid then { u with status := "spent", spentByTxid := some txid }
    else u

/-- `markUTXODirty` (batch worker): `dirty = TRUE, status = 'available',
reserved_at = NULL, reserved_until = NULL`. -/
def markUTXODirty (pool : List Utxo) (uid : Nat) : List Utxo :=
  pool.map fun u =>
    if u.id == uid then
      { u with dirty := true, status := "available",
               reservedAt := none, reservedUntil := none }
    else u

/-- `releaseUTXO` (batch worker): back to available, reservation cleared,
dirty flag untouched. -/
def releaseUTXO (pool : List Utxo) (uid : Nat) : List Utxo :=
  pool.map fun u =>
    if u.id == uid then
      { u with status := "available", reservedAt := none, reservedUntil := none }
    else u

/-! ## One broadcaster iteration (batch worker `processJob` / `broadcasterLoop`) -/

/-- `error.message.includes(needle)` — substring test on the char lists. -/
def strIncludes (hay needle : String) : Bool :=
  go hay.data
where
  go : List Char → Bool
    | [] => List.isPrefixOf needle.data []
    | c :: rest => List.isPrefixOf needle.data (c :: rest) || go rest

/-- Outcome of `broadcastTx`: a txid, or a thrown error message. -/
inductive BroadcastResult where
  | ok (txid : String)
  | err (msg : String)
deriving DecidableEq

/-- The catch block of the batch worker's `processJob`: a message
containing "mempool" marks the UTXO dirty, anything else releases it;
either way the job row is set to `failed` with
`error_code = 'BROADCAST_ERROR'` and the message as detail. -/
def handleBroadcastError (msg : String) (uid : Nat) (pool : List Utxo)
    (jobs : List PJob) (jid : Nat) : List Utxo × List PJob :=
  (if strIncludes msg "mempool" then markUTXODirty pool uid
   else releaseUTXO pool uid,
   jobs.map fun j =>
     if j.id == jid then
       { j with status := "failed", errorCode := some "BROADCAST_ERROR",
                errorDetail := some msg }
     else j)

/-- The batch worker's `processJob` body: reserve a UTXO (throwing
`"No available UTXOs in pool"` when none — this throw happens before the
try block, so `processJob`'s own catch never sees it), then build the
transaction, rate-limit, broadcast, and commit the outcome.  The result
carries the updated pool and jobs plus the escaped error, if any. -/
def processJob (now : Nat) (bres : BroadcastResult) (pool : List Utxo)
    (jobs : List PJob) (job : PJob) :
    List Utxo × List PJob × Option String :=
  match reserveUTXOBatch now pool with
  | (pool1, none) => (pool1, jobs, some "No available UTXOs in pool")
  | (pool1, some u) =>
    match bres with
    | .ok txid =>
      (markUTXOSpent pool1 u.id txid,
       jobs.map fun j =>
         if j.id == job.id then
           { j with status := "sent", txid := some txid }
         else j,
       none)
    | .err msg =>
      let p := handleBroadcastError msg u.id pool1 jobs job.id
      (p.1, p.2, none)

/-- One iteration of the broadcaster's inner drain loop on batch `bid`:
claim the next job and process it.  An error escaping `processJob` is
caught by the loop's try/catch, which only logs and pauses — the claimed
job keeps whatever state the database already has. -/
def broadcasterIteration (now : Nat) (bres : BroadcastResult) (bid : String)
    (pool : List Utxo) (jobs : List PJob) : List Utxo × List PJob :=
  match claimNextJob now bid jobs with
  | (jobs1, none) => (pool, jobs1)
  | (jobs1, some j) =>
    match processJob now bres pool jobs1 j with
    | (pool2, jobs2, _) => (pool2, jobs2)

/-! ## Token bucket (dist/token-bucket.js)

JavaScript numbers are modelled as exact rationals.  `take(n)` loops:
each iteration refills from the wall clock and either consumes `n`
tokens (the acquisition completes) or sleeps and retries.  An execution
trace is the list of such polls, each a (timestamp, n) pair. -/

structure TokenBucket where
  capacity : ℚ
  refillPerMs : ℚ
  tokens : ℚ
  lastRefillMs : ℚ
deriving DecidableEq

namespace TokenBucket

/-- The constructor: `tokens = capacity` (initial fill), `lastRefillMs =
Date.now()`.  The batch worker passes `refillPerMs = capacity / 3000`. -/
def init (capacity refillPerMs nowMs : ℚ) : TokenBucket :=
  ⟨capacity, refillPerMs, capacity, nowMs⟩

/-- `refill(now)`: `elapsed = now - lastRefillMs; if (elapsed <= 0) return;
tokens = min(capacity, tokens + elapsed * refillPerMs); lastRefillMs = now`. -/
def refill (b : TokenBucket) (now : ℚ) : TokenBucket :=
  if now - b.lastRefillMs ≤ 0 then b
  else
    { b with tokens := min b.capacity (b.tokens + (now - b.lastRefillMs) * b.refillPerMs),
             lastRefillMs := now }

/-- One poll of the `take(n)` loop at wall-clock time `now`: refill, then
take `n` tokens if `tokens >= n` (`true` = the acquisition completed),
else leave the bucket refilled and retry later (`false`). -/
def tryTake (b : TokenBucket) (now n : ℚ) : TokenBucket × Bool :=
  let b1 := b.refill now
  if n ≤ b1.tokens then ({ b1 with tokens := b1.tokens - n }, true)
  else (b1, false)

end TokenBucket

/-- Total tokens acquired by polls that complete at a time inside the
closed window `[s, t]`, along an execution trace. -/
def takenInWindow (s t : ℚ) : TokenBucket → List (ℚ × ℚ) → ℚ
  | _, [] => 0
  | b, (u, n) :: evs =>
    (if (b.tryTake u n).2 = true ∧ s ≤ u ∧ u ≤ t then n else 0)
      + takenInWindow s t (b.tryTake u n).1 evs

/-- Total tokens acquired by polls completing at any time `≤ t`. -/
def takenUpTo (t : ℚ) : TokenBucket → List (ℚ × ℚ) → ℚ
  | _, [] => 0
  | b, (u, n) :: evs =>
    (if (b.tryTake u n).2 = true ∧ u ≤ t then n else 0)
      + takenUpTo t (b.tryTake u n).1 evs

/-- Poll timestamps are nondecreasing and start no earlier than `t0`
(the wall clock of a single process). -/
def timesMono : ℚ → List (ℚ × ℚ) → Prop
  | _, [] => True
  | t0, (u, _) :: evs => t0 ≤ u ∧ timesMono u evs

/-- Requested token amounts are nonnegative (the worker takes 1). -/
def amountsNonneg : List (ℚ × ℚ) → Prop
  | [] => True
  | (_, n) :: evs => 0 ≤ n ∧ amountsNonneg evs

/-! ## JSON canonicalizer (crypto utilities `canonicalizeJSON` / `hashJSON`)

`canonicalizeJSON(obj) = JSON.stringify(sortKeys(obj))` where `sortKeys`
recursively rebuilds every object with its keys sorted (JavaScript's
default string sort) and maps over arrays.  JSON-compatible values are
modelled by `Json`; object fields are a key-value list (JavaScript
objects cannot hold duplicate keys, which `nodupKeysB` captures).
Numbers carry their integer value; JavaScript float formatting is out of
scope since structurally equal scalars are syntactically equal. -/

inductive Json where
  | null
  | bool (b : Bool)
  | num (n : Int)
  | str (s : String)
  | arr (elems : List Json)
  | obj (fields : List (String × Json))

/-- Key comparison used to sort object keys: lexicographic code-point
order on the key strings — JavaScript's default `Array.prototype.sort`
comparison. -/
def keyRel (a b : String) : Prop := a.data ≤ b.data

instance : DecidableRel keyRel := fun a b => by
  unfold keyRel; exact inferInstance

instance : IsTotal String keyRel := ⟨fun a b => le_total a.data b.data⟩

instance : IsTrans String keyRel := ⟨fun _ _ _ => le_trans⟩

instance : IsAntisymm String keyRel :=
  ⟨fun _ _ h h' => String.ext (le_antisymm h h')⟩

/-- Key order lifted to object fields. -/
def fieldLe (p q : String × Json) : Prop := keyRel p.1 q.1

instance : DecidableRel fieldLe := fun p q => by
  unfold fieldLe; exact inferInstance

instance : IsTotal (String × Json) fieldLe := ⟨fun p q => le_total p.1.data q.1.data⟩

instance : IsTrans (String × Json) fieldLe := ⟨fun _ _ _ => le_trans⟩

mutual

/-- `sortKeys`: arrays map recursively; objects rebuild with keys sorted;
scalars pass through. -/
def sortKeys : Json → Json
  | .null => .null
  | .bool b => .bool b
  | .num n => .num n
  | .str s => .str s
  | .arr xs => .arr (sortKeysList xs)
  | .obj fs => .obj (List.insertionSort fieldLe (sortKeysFields fs))

def sortKeysList : List Json → List Json
  | [] => []
  | x :: xs => sortKeys x :: sortKeysList xs

def sortKeysFields : List (String × Json) → List (String × Json)
  | [] => []
  | (k, v) :: fs => (k, sortKeys v) :: sortKeysFields fs

end

/-- JSON string escaping for `JSON.stringify` (quote and backslash; the
exact escape table is irrelevant to canonicality, only that it is a
function of the string). -/
def escapeChar (c : Char) : List Char :=
  if c = '"' then ['\\', '"']
  else if c = '\\' then ['\\', '\\']
  else [c]

/-- A JSON string literal. -/
def quoteStr (s : String) : String :=
  ⟨'"' :: (s.data.map escapeChar).flatten ++ ['"']⟩

mutual

/-- `JSON.stringify` on the already-key-sorted structure: minimal JSON,
no insignificant whitespace. -/
def serialize : Json → String
  | .null => "null"
  | .bool true => "true"
  | .bool false => "false"
  | .num n => toString n
  | .str s => quoteStr s
  | .arr xs => "[" ++ String.intercalate "," (serializeList xs) ++ "]"
  | .obj fs => "\x7b" ++ String.intercalate "," (serializeFields fs) ++ "\x7d"

def serializeList : List Json → List String
  | [] => []
  | x :: xs => serialize x :: serializeList xs

def serializeFields : List (String × Json) → List String
  | [] => []
  | (k, v) :: fs => (quoteStr k ++ ":" ++ serialize v) :: serializeFields fs

end

/-- `canonicalizeJSON(obj) = JSON.stringify(sortKeys(obj))`. -/
def canonicalizeJSON (v : Json) : String := serialize (sortKeys v)

/-- `hashJSON(obj) = sha256(canonicalizeJSON(obj))`; sha256 is the
external crypto library, abstracted as an arbitrary digest function. -/
def hashJSON (sha256 : String → String) (v : Json) : String :=
  sha256 (canonicalizeJSON v)

/-- Value of key `k` in an object field list (objects have unique keys). -/
def lookupKey (k : String) : List (String × Json) → Option Json
  | [] => none
  | (k', v) :: fs => if k' == k then some v else lookupKey k fs

/-- Field lists with pairwise distinct keys — every JavaScript object. -/
def nodupKeysB : List (String × Json) → Bool
  | [] => true
  | (k, _) :: fs => !(fs.map Prod.fst).contains k && nodupKeysB fs

mutual

/-- Structural equality of JSON-compatible values: equal scalars, equal
array sequences, and objects with the same key set whose values agree
structurally — irrespective of field order. -/
def structEq : Json → Json → Bool
  | .null, .null => true
  | .bool a, .bool b => a == b
  | .num a, .num b => a == b
  | .str a, .str b => a == b
  | .arr xs, .arr ys => structEqList xs ys
  | .obj fs, .obj gs =>
    nodupKeysB fs && nodupKeysB gs && fs.length == gs.length &&
      structEqFields fs gs
  | _, _ => false

def structEqList : List Json → List Json → Bool
  | [], [] => true
  | x :: xs, y :: ys => structEq x y && structEqList xs ys
  | _, _ => false

def structEqFields : List (String × Json) → List (String × Json) → Bool
  | [], _ => true
  | (k, v) :: fs, gs =>
    (match lookupKey k gs with
     | some w => structEq v w
     | none => false) && structEqFields fs gs

end

/-! # Theorems -/

/-! ## C8 — timestamp skew -/

/-- C8: the claim states admission accepts an intent with respect to time
iff |now − timestamp| ≤ 10 minutes.  Concretely false: a timestamp
1 000 000 ms in the future deviates by more than the window in the future
direction, yet validation accepts it — the code only compares
`now − timestamp` against the window. -/
theorem C8_timestamp_counterexample :
    validatePublishIntent 0 1000000 (.ok []) true (.ok [1]) = (true, none) ∧
      ¬ (|(0 : Int) - 1000000| ≤ 600 * 1000) := by
  constructor
  · decide
  · decide

/-- C8 (amended): validation rejects for staleness exactly when
`now − timestamp` exceeds 10 minutes; a timestamp exactly at the boundary
is accepted, and any future timestamp — arbitrarily far — is accepted. -/
theorem C8_timestamp_amended (nowMs tsMs : Int)
    (nonceQuery : Except Unit (List Nat)) (sigValid : Bool)
    (keyQuery : Except Unit (List Nat)) :
    validatePublishIntent nowMs tsMs nonceQuery sigValid keyQuery
        = (false, some "Timestamp too old") ↔ 600 * 1000 < nowMs - tsMs := by
  unfold validatePublishIntent
  by_cases h : nowMs - tsMs > 600 * 1000
  · rw [if_pos h]
    exact iff_of_true rfl h
  · rw [if_neg h]
    constructor
    · intro hc
      simp [ite_eq_iff] at hc
    · intro hc
      exact absurd hc h

/-! ## C10 — erroring registry queries skip their checks -/

/-- C10: if the nonce-uniqueness query or the signer-registry query
throws, that check is skipped (warn-and-continue): validation with an
erroring store behaves as if the check had passed, and with both queries
erroring a timely intent with a valid signature is reported valid — even
when the nonce is in fact used or the signer unregistered, since the
erroring store can report neither. -/
theorem C10_validation_error_skip (nowMs tsMs : Int) (sigValid : Bool)
    (h : ¬ (nowMs - tsMs > 600 * 1000)) :
    validatePublishIntent nowMs tsMs (.error ()) true (.error ()) = (true, none)
    ∧ (∀ keyQuery, validatePublishIntent nowMs tsMs (.error ()) sigValid keyQuery
        = validatePublishIntent nowMs tsMs (.ok []) sigValid keyQuery)
    ∧ (∀ nonceQuery, validatePublishIntent nowMs tsMs nonceQuery sigValid (.error ())
        = validatePublishIntent nowMs tsMs nonceQuery sigValid (.ok [1])) := by
  refine ⟨?_, ?_, ?_⟩
  · unfold validatePublishIntent
    rw [if_neg h]
    simp
  · intro keyQuery
    unfold validatePublishIntent
    rw [if_neg h, if_neg h]
    simp
  · intro nonceQuery
    unfold validatePublishIntent
    rw [if_neg h, if_neg h]
    rcases nonceQuery with e | rows <;> simp

/-- Witness for C10 at a concrete timely intent. -/
theorem C10_validation_error_skip_witness :
    ¬ ((0 : Int) - 0 > 600 * 1000) ∧
      validatePublishIntent 0 0 (.error ()) true (.error ()) = (true, none) :=
  ⟨by decide, (C10_validation_error_skip 0 0 true (by decide)).1⟩

/-! ## C1 — replay protection under concurrency -/

/-- C1: the claim states the nonce-row insertion reports a unique
violation so that of two concurrent admissions with the same
(pubkey, nonce), exactly one succeeds and the other gets ReplayDetected.
Concretely false: with the interleaving check-A, check-B, commit-A,
commit-B (both pre-checks run before either commit), both admissions
succeed and neither receives ReplayDetected — the insert's
ON CONFLICT DO NOTHING silently absorbs the duplicate. -/
theorem C1_concurrent_replay_counterexample :
    (runSched ⟨[], []⟩ (mkTask "pk" "n" "h1" "j1") (mkTask "pk" "n" "h2" "j2")
        [false, true, false, true]).2.1.res = some (.accepted "j1")
    ∧ (runSched ⟨[], []⟩ (mkTask "pk" "n" "h1" "j1") (mkTask "pk" "n" "h2" "j2")
        [false, true, false, true]).2.2.res = some (.accepted "j2")
    ∧ ¬ ((runSched ⟨[], []⟩ (mkTask "pk" "n" "h1" "j1") (mkTask "pk" "n" "h2" "j2")
          [false, true, false, true]).2.1.res = some .replayDetected
        ∨ (runSched ⟨[], []⟩ (mkTask "pk" "n" "h1" "j1") (mkTask "pk" "n" "h2" "j2")
          [false, true, false, true]).2.2.res = some .replayDetected) := by
  refine ⟨by decide, by decide, by decide⟩

/-- C1 (amended): replay protection lives in the validation pre-check
SELECT, not in the insertion — `recordNonce` never reports a violation.
An admission that starts after a duplicate has committed fails with
ReplayDetected; an admission whose (pubkey, nonce) pair is present at
pre-check time fails with ReplayDetected and leaves the store unchanged. -/
theorem C1_replay_amended (s : AdmissionState) (pk n rh1 j1 rh2 j2 : String)
    (hn : nonceExists s pk n = false)
    (hh : (s.jobs.map Prod.snd).contains rh1 = false) :
    (handlePublish s pk n rh1 j1).2 = .accepted j1
    ∧ (handlePublish (handlePublish s pk n rh1 j1).1 pk n rh2 j2).2 = .replayDetected
    ∧ ∀ s' pk' n', nonceExists s' pk' n' = true →
        handlePublish s' pk' n' rh2 j2 = (s', .replayDetected) := by
  have hrec : recordNonce s pk n = { nonces := (pk, n) :: s.nonces, jobs := s.jobs } := by
    simp [recordNonce, hn]
  have h1 : handlePublish s pk n rh1 j1
      = ({ nonces := (pk, n) :: s.nonces, jobs := (j1, rh1) :: s.jobs }, .accepted j1) := by
    unfold handlePublish
    rw [hn, hrec]
    simp only [Bool.false_eq_true, if_false]
    unfold createPublishJob
    simp only [hh]
    simp
  refine ⟨by rw [h1], ?_, ?_⟩
  · rw [h1]
    unfold handlePublish nonceExists
    simp
  · intro s' pk' n' h'
    unfold handlePublish
    simp [h']

/-- Witness for C1 (amended) at a concrete fresh admission. -/
theorem C1_replay_amended_witness :
    nonceExists ⟨[], []⟩ "pk" "n" = false
    ∧ ((⟨[], []⟩ : AdmissionState).jobs.map Prod.snd).contains "h1" = false
    ∧ (handlePublish ⟨[], []⟩ "pk" "n" "h1" "j1").2 = .accepted "j1"
    ∧ (handlePublish (handlePublish ⟨[], []⟩ "pk" "n" "h1" "j1").1 "pk" "n" "h2" "j2").2
        = .replayDetected :=
  ⟨by decide, by decide,
    (C1_replay_amended ⟨[], []⟩ "pk" "n" "h1" "j1" "h2" "j2" (by decide) (by decide)).1,
    (C1_replay_amended ⟨[], []⟩ "pk" "n" "h1" "j1" "h2" "j2" (by decide) (by decide)).2.1⟩

/-! ## C2 — admission idempotence on the record body -/

/-- C2: the claim states a second submission with the same record hash
returns the first submission's jobId and creates no new rows.  Concretely
false: the second submission (same body, fresh nonce) hits the
`record_hash` UNIQUE constraint inside `createPublishJob`, the endpoint's
catch-all turns the throw into a 500 internal error — the prior job id is
not returned — and a second nonce row has already been inserted. -/
theorem C2_idempotence_counterexample :
    (handlePublish ⟨[], []⟩ "pk" "n1" "H" "job1").2 = .accepted "job1"
    ∧ (handlePublish (handlePublish ⟨[], []⟩ "pk" "n1" "H" "job1").1 "pk" "n2" "H" "job2").2
        = .internalError
    ∧ ¬ ((handlePublish (handlePublish ⟨[], []⟩ "pk" "n1" "H" "job1").1 "pk" "n2" "H" "job2").2
        = .accepted "job1")
    ∧ (handlePublish (handlePublish ⟨[], []⟩ "pk" "n1" "H" "job1").1 "pk" "n2" "H" "job2").1.nonces.length
        = 2 := by
  refine ⟨by decide, by decide, by decide, by decide⟩

/-- C2 (amended): a second submission whose record hash already exists in
`publish_jobs` fails with an internal error (500) instead of returning
the existing job id; the unique constraint prevents a second job row, but
a fresh nonce row is still recorded before the failing insert. -/
theorem C2_idempotence_amended (s : AdmissionState) (pk n rh j : String)
    (hh : (s.jobs.map Prod.snd).contains rh = true)
    (hn : nonceExists s pk n = false) :
    handlePublish s pk n rh j
      = ({ nonces := (pk, n) :: s.nonces, jobs := s.jobs }, .internalError) := by
  have hrec : recordNonce s pk n = { nonces := (pk, n) :: s.nonces, jobs := s.jobs } := by
    simp [recordNonce, hn]
  unfold handlePublish
  rw [hn, hrec]
  simp only [Bool.false_eq_true, if_false]
  unfold createPublishJob
  simp only [hh]
  simp

/-- Witness for C2 (amended) at a concrete duplicate-hash submission. -/
theorem C2_idempotence_amended_witness :
    ((⟨[("n0", "n0")], [("job1", "H")]⟩ : AdmissionState).jobs.map Prod.snd).contains "H" = true
    ∧ nonceExists ⟨[("n0", "n0")], [("job1", "H")]⟩ "pk" "n2" = false
    ∧ handlePublish ⟨[("n0", "n0")], [("job1", "H")]⟩ "pk" "n2" "H" "job2"
        = ({ nonces := [("pk", "n2"), ("n0", "n0")], jobs := [("job1", "H")] }, .internalError) :=
  ⟨by decide, by decide,
    C2_idempotence_amended ⟨[("n0", "n0")], [("job1", "H")]⟩ "pk" "n2" "H" "job2"
      (by decide) (by decide)⟩

/-! ## C5 — mempool conflict handling -/

/-- C5: the claim states a mempool-conflict outcome records the error
code MempoolConflict verbatim in `job.error_code`.  Concretely false:
the batch worker's catch block does mark the UTXO dirty and available
with the reservation cleared, but it writes the literal
`'BROADCAST_ERROR'` — the same code as every other broadcast failure —
never `MempoolConflict`. -/
theorem C5_mempool_counterexample :
    (handleBroadcastError "txn-mempool-conflict" 1
        [⟨1, "publish", "reserved", 5, 0, false, some 0, some 300000, none⟩]
        [⟨1, 0, "sending", some "b", some 1, some 0, none, none, none⟩] 1)
      = ([⟨1, "publish", "available", 5, 0, true, none, none, none⟩],
         [⟨1, 0, "failed", some "b", some 1, some 0, some "BROADCAST_ERROR",
           some "txn-mempool-conflict", none⟩])
    ∧ ¬ (∃ j ∈ (handleBroadcastError "txn-mempool-conflict" 1
          [⟨1, "publish", "reserved", 5, 0, false, some 0, some 300000, none⟩]
          [⟨1, 0, "sending", some "b", some 1, some 0, none, none, none⟩] 1).2,
            j.errorCode = some "MempoolConflict") := by
  refine ⟨by decide, by decide⟩

/-- C5 (amended): on a broadcast error whose message contains "mempool",
the reserved UTXO is marked dirty, set available with the reservation
fields cleared, and the job transitions to failed — but with
`error_code = 'BROADCAST_ERROR'` and the raw message in `error_detail`,
not the code MempoolConflict. -/
theorem C5_mempool_amended (msg : String) (uid : Nat) (pool : List Utxo)
    (jobs : List PJob) (jid : Nat)
    (hm : strIncludes msg "mempool" = true) :
    (∀ u ∈ (handleBroadcastError msg uid pool jobs jid).1, u.id = uid →
        u.dirty = true ∧ u.status = "available" ∧ u.reservedAt = none
          ∧ u.reservedUntil = none)
    ∧ (∀ j ∈ (handleBroadcastError msg uid pool jobs jid).2, j.id = jid →
        j.status = "failed" ∧ j.errorCode = some "BROADCAST_ERROR"
          ∧ j.errorDetail = some msg) := by
  unfold handleBroadcastError
  rw [if_pos hm]
  constructor
  · intro u hu huid
    unfold markUTXODirty at hu
    rcases List.mem_map.mp hu with ⟨u0, _, rfl⟩
    by_cases hb : (u0.id == uid) = true
    · rw [if_pos hb]
      exact ⟨rfl, rfl, rfl, rfl⟩
    · rw [if_neg hb] at huid
      exact absurd huid (by simpa using hb)
  · intro j hj hjid
    rcases List.mem_map.mp hj with ⟨j0, _, rfl⟩
    by_cases hb : (j0.id == jid) = true
    · rw [if_pos hb]
      exact ⟨rfl, rfl, rfl⟩
    · rw [if_neg hb] at hjid
      exact absurd hjid (by simpa using hb)

/-- Witness for C5 (amended) at a concrete mempool-conflict message. -/
theorem C5_mempool_amended_witness :
    strIncludes "txn-mempool-conflict" "mempool" = true
    ∧ (∀ j ∈ (handleBroadcastError "txn-mempool-conflict" 1
          [⟨1, "publish", "reserved", 5, 0, false, some 0, some 300000, none⟩]
          [⟨1, 0, "sending", some "b", some 1, some 0, none, none, none⟩] 1).2,
        j.id = 1 →
        j.status = "failed" ∧ j.errorCode = some "BROADCAST_ERROR"
          ∧ j.errorDetail = some "txn-mempool-conflict") :=
  ⟨by decide,
    (C5_mempool_amended "txn-mempool-conflict" 1
      [⟨1, "publish", "reserved", 5, 0, false, some 0, some 300000, none⟩]
      [⟨1, 0, "sending", some "b", some 1, some 0, none, none, none⟩] 1
      (by decide)).2⟩

/-! ## C6 — exhausted pool during a batch drain -/

/-- If `claimNextJob` returns a job, that job has just been moved to
`sending`. -/
theorem claimNextJob_some_status (now : Nat) (bid : String) (jobs jobs1 : List PJob)
    (j : PJob) (h : claimNextJob now bid jobs = (jobs1, some j)) :
    j.status = "sending" ∧ j.sendingStartedAt = some now := by
  unfold claimNextJob at h
  rcases hs : List.insertionSort jobSeqLe
      (jobs.filter fun jb => jb.batchId == some bid && jb.status == "processing_batch")
    with _ | ⟨j0, rest⟩
  · rw [hs] at h
    simp at h
  · rw [hs] at h
    simp only [Prod.mk.injEq, Option.some.injEq] at h
    rw [← h.2]
    exact ⟨rfl, rfl⟩

/-- C6: the claim states a job whose reservation comes back empty is
marked failed with NoCapacity before moving on.  Concretely false: with
an empty pool, the broadcaster iteration claims the job into `sending`,
`processJob` throws "No available UTXOs in pool", the loop's catch only
logs and pauses — the job stays `sending` and no error code is written
(the string `NoCapacity` appears nowhere in the worker). -/
theorem C6_nocapacity_counterexample :
    (broadcasterIteration 100 (.ok "T") "b" []
        [⟨1, 0, "processing_batch", some "b", some 1, none, none, none, none⟩]).2
      = [⟨1, 0, "sending", some "b", some 1, some 100, none, none, none⟩]
    ∧ ¬ (∃ j ∈ (broadcasterIteration 100 (.ok "T") "b" []
          [⟨1, 0, "processing_batch", some "b", some 1, none, none, none, none⟩]).2,
            j.status = "failed" ∧ j.errorCode = some "NoCapacity") := by
  refine ⟨by decide, by decide⟩

/-- C6 (amended): when the swept pool has no eligible UTXO, the
broadcaster iteration leaves the freshly claimed job in `sending` with
its error fields untouched (the thrown "No available UTXOs in pool" is
swallowed by the loop); the job is only recovered later by
`unstickJobs`, which resets it to `processing_batch` once its 2-minute
TTL expires. -/
theorem C6_nocapacity_amended (now : Nat) (bres : BroadcastResult) (bid : String)
    (pool : List Utxo) (jobs jobs1 : List PJob) (j : PJob)
    (hempty : (releaseExpired now pool).filter eligible = [])
    (hclaim : claimNextJob now bid jobs = (jobs1, some j)) :
    broadcasterIteration now bres bid pool jobs = (releaseExpired now pool, jobs1)
    ∧ j.status = "sending" ∧ j.sendingStartedAt = some now
    ∧ ∀ now', now + 2 * 60 * 1000 < now' →
        ∀ r ∈ unstickJobs now' jobs1, r.id = j.id → j ∈ jobs1 →
          (∀ x ∈ jobs1, x.id = j.id → x = j) → r.status = "processing_batch" := by
  have hres : reserveUTXOBatch now pool = (releaseExpired now pool, none) := by
    unfold reserveUTXOBatch
    rw [hempty]
    rfl
  have hst := claimNextJob_some_status now bid jobs jobs1 j hclaim
  refine ⟨?_, hst.1, hst.2, ?_⟩
  · unfold broadcasterIteration
    rw [hclaim]
    unfold processJob
    rw [hres]
  · intro now' hlt r hr hrid hjmem huniq
    unfold unstickJobs at hr
    rcases List.mem_map.mp hr with ⟨r0, hr0, rfl⟩
    by_cases hb : (r0.status == "sending" &&
        (match r0.sendingStartedAt with
         | some t => decide (t + 2 * 60 * 1000 < now')
         | none => false)) = true
    · rw [if_pos hb]
    · rw [if_neg hb] at hrid
      have heq : r0 = j := huniq r0 hr0 hrid
      subst heq
      exfalso
      apply hb
      rw [hst.1, hst.2]
      simp [hlt]

/-- Witness for C6 (amended) at a concrete empty pool. -/
theorem C6_nocapacity_amended_witness :
    (releaseExpired 100 ([] : List Utxo)).filter eligible = []
    ∧ claimNextJob 100 "b" [⟨1, 0, "processing_batch", some "b", some 1, none, none, none, none⟩]
        = ([⟨1, 0, "sending", some "b", some 1, some 100, none, none, none⟩],
           some ⟨1, 0, "sending", some "b", some 1, some 100, none, none, none⟩)
    ∧ broadcasterIteration 100 (.ok "T") "b" []
        [⟨1, 0, "processing_batch", some "b", some 1, none, none, none, none⟩]
        = (releaseExpired 100 [],
           [⟨1, 0, "sending", some "b", some 1, some 100, none, none, none⟩]) :=
  ⟨by decide, by decide,
    (C6_nocapacity_amended 100 (.ok "T") "b" []
      [⟨1, 0, "processing_batch", some "b", some 1, none, none, none, none⟩]
      [⟨1, 0, "sending", some "b", some 1, some 100, none, none, none⟩]
      ⟨1, 0, "sending", some "b", some 1, some 100, none, none, none⟩
      (by decide) (by decide)).1⟩

/-! ## C4 — UTXO reservation -/

/-- The (satoshis, created_at) order is reflexive. -/
theorem satsCreatedLe_refl (a : Utxo) : satsCreatedLe a a :=
  Or.inr ⟨rfl, Nat.le_refl _⟩

/-- C4: the claim states every call to Reserve() sweeps expired leases,
skips dirty rows, picks the smallest-satoshis row and stamps a 5-minute
lease.  Concretely false for the single-job worker's `reserveUTXO`
(worker.ts), one of the two implementations the claim covers: on a pool
whose only row is dirty it still returns that row (the claim requires
null), because it has no sweep, no dirty filter, orders by created_at
only and never sets `reserved_until`. -/
theorem C4_reserve_counterexample :
    ¬ (ReserveBehaves reserveUTXOBatch ∧ ReserveBehaves reserveUTXOWorker) := by
  intro hcl
  have h := (hcl.2 0 [⟨1, "publish", "available", 5, 0, true, none, none, none⟩]).1
  have hnone := h.mpr (by decide)
  exact absurd hnone (by decide)

/-- C4 (amended): the batch worker's `reserveUTXO` behaves exactly as
claimed — it first releases expired reservations, reserves an eligible
(publish, available, not dirty) row of the swept pool that is minimal
for (satoshis, created_at), stamps `reserved_until = now + 5 min`, and
returns null exactly when no eligible row exists.  The single-job
worker's `reserveUTXO` does none of the sweep/dirty/satoshis/lease
handling. -/
theorem C4_reserve_amended : ReserveBehaves reserveUTXOBatch := by
  intro now pool
  rcases hs : List.insertionSort satsCreatedLe ((releaseExpired now pool).filter eligible)
    with _ | ⟨u, rest⟩
  · have hperm := List.perm_insertionSort satsCreatedLe
      ((releaseExpired now pool).filter eligible)
    rw [hs] at hperm
    have hnil : (releaseExpired now pool).filter eligible = [] := hperm.symm.eq_nil
    constructor
    · unfold reserveUTXOBatch
      rw [hs]
      simp [hnil]
    · intro v hv
      unfold reserveUTXOBatch at hv
      rw [hs] at hv
      simp at hv
  · have hperm := List.perm_insertionSort satsCreatedLe
      ((releaseExpired now pool).filter eligible)
    rw [hs] at hperm
    have hsort := List.sorted_insertionSort satsCreatedLe
      ((releaseExpired now pool).filter eligible)
    rw [hs] at hsort
    have humem : u ∈ (releaseExpired now pool).filter eligible :=
      hperm.subset (List.mem_cons_self u rest)
    constructor
    · unfold reserveUTXOBatch
      rw [hs]
      constructor
      · intro h
        exact absurd h (by simp)
      · intro h
        rw [h] at hperm
        exact absurd hperm.eq_nil (by simp)
    · intro v hv
      unfold reserveUTXOBatch at hv
      rw [hs] at hv
      simp only [Option.some.injEq] at hv
      rw [← hv]
      refine ⟨rfl, rfl, rfl, u, humem, rfl, ?_⟩
      intro w hw
      have hw' : w ∈ u :: rest := hperm.symm.subset hw
      rcases List.mem_cons.mp hw' with h | h
      · rw [h]
        exact satsCreatedLe_refl u
      · exact List.rel_of_sorted_cons hsort w h

/-- Witness for C4 (amended): on an empty pool the batch reserve
returns null. -/
theorem C4_reserve_amended_witness :
    (reserveUTXOBatch 0 ([] : List Utxo)).2 = none :=
  (C4_reserve_amended 0 []).1.mpr (by decide)

/-! ## C3 — batch sequence numbering -/

/-- In a sorted duplicate-free list of naturals, `indexOf` is strictly
monotone on members. -/
theorem indexOf_lt_of_sorted_nodup (l : List Nat)
    (hs : List.Sorted (fun a b => a ≤ b) l) (hn : l.Nodup)
    (a b : Nat) (ha : a ∈ l) (hb : b ∈ l) (hab : a < b) :
    l.indexOf a < l.indexOf b := by
  induction l with
  | nil => cases ha
  | cons x xs ih =>
    rcases List.mem_cons.mp ha with rfl | ha'
    · rw [List.indexOf_cons_self]
      have hb' : b ∈ xs := by
        rcases List.mem_cons.mp hb with rfl | h
        · exact absurd hab (lt_irrefl _)
        · exact h
      have hxb : a ≠ b := Nat.ne_of_lt hab
      rw [List.indexOf_cons_ne xs hxb]
      exact Nat.succ_pos _
    · have hxa : x ≠ a := by
        intro h
        exact (List.nodup_cons.mp hn).1 (h ▸ ha')
      have hb' : b ∈ xs := by
        rcases List.mem_cons.mp hb with rfl | h
        · exfalso
          have := List.rel_of_sorted_cons hs a ha'
          omega
        · exact h
      have hxb : x ≠ b := by
        intro h
        exact (List.nodup_cons.mp hn).1 (h ▸ hb')
      rw [List.indexOf_cons_ne xs hxa, List.indexOf_cons_ne xs hxb]
      exact Nat.succ_lt_succ (ih hs.of_cons (List.nodup_cons.mp hn).2 ha' hb')

/-- Mapping each member of a duplicate-free list to its own index
enumerates 0..n-1. -/
theorem map_indexOf_eq_range (l : List Nat) (hn : l.Nodup) :
    l.map (fun x => l.indexOf x) = List.range l.length := by
  induction l with
  | nil => rfl
  | cons x xs ih =>
    rw [List.length_cons, List.range_succ_eq_map, List.map_cons]
    congr 1
    · exact List.indexOf_cons_self x xs
    · have hstep : ∀ y ∈ xs, (fun z => List.indexOf z (x :: xs)) y
          = (fun z => (List.indexOf z xs).succ) y := by
        intro y hy
        exact List.indexOf_cons_ne xs (fun h => (List.nodup_cons.mp hn).1 (h ▸ hy))
      rw [List.map_congr_left hstep, ← ih (List.nodup_cons.mp hn).2, List.map_map]
      rfl

/-- `filterMap` is a `map` when the function is total on the list. -/
theorem filterMap_eq_map_of_mem {α β : Type} (l : List α) (f : α → Option β) (g : α → β)
    (h : ∀ x ∈ l, f x = some (g x)) : l.filterMap f = l.map g := by
  induction l with
  | nil => rfl
  | cons x xs ih =>
    rw [List.filterMap_cons, h x (List.mem_cons_self x xs), List.map_cons,
      ih (fun y hy => h y (List.mem_cons_of_mem x hy))]

/-- The claimed ids inherit distinctness from the primary key. -/
theorem collectIds_nodup (limit : Nat) (jobs : List PJob)
    (hnd : (jobs.map (fun j => j.id)).Nodup) : (collectIds limit jobs).Nodup := by
  have h0 : ((jobs.filter fun j => j.status == "queued").map (fun j => j.id)).Nodup :=
    ((List.filter_sublist jobs).map (fun j : PJob => j.id)).nodup hnd
  have h1 : ((List.insertionSort jobCreatedLe
      (jobs.filter fun j => j.status == "queued")).map (fun j => j.id)).Nodup :=
    (((List.perm_insertionSort jobCreatedLe _).map (fun j : PJob => j.id)).symm).nodup h0
  have h2 : (((List.insertionSort jobCreatedLe
      (jobs.filter fun j => j.status == "queued")).take limit).map (fun j => j.id)).Nodup :=
    ((List.take_sublist limit (List.insertionSort jobCreatedLe
      (jobs.filter fun j => j.status == "queued"))).map (fun j : PJob => j.id)).nodup h1
  exact (((List.perm_insertionSort jobIdLe _).map (fun j : PJob => j.id)).symm).nodup h2

/-- `numbered` is ordered by id. -/
theorem collectIds_sorted (limit : Nat) (jobs : List PJob) :
    List.Sorted (fun a b => a ≤ b) (collectIds limit jobs) := by
  unfold collectIds
  exact List.Pairwise.map (fun j : PJob => j.id) (fun a b h => h)
    (List.sorted_insertionSort jobIdLe _)

/-- Every claimed id is the id of a job row. -/
theorem collectIds_sub (limit : Nat) (jobs : List PJob) :
    ∀ x ∈ collectIds limit jobs, ∃ j ∈ jobs, j.id = x := by
  intro x hx
  rcases List.mem_map.mp hx with ⟨j, hj, rfl⟩
  have hj1 : j ∈ (List.insertionSort jobCreatedLe
      (jobs.filter fun jb => jb.status == "queued")).take limit :=
    (List.perm_insertionSort jobIdLe _).subset hj
  have hj2 : j ∈ List.insertionSort jobCreatedLe
      (jobs.filter fun jb => jb.status == "queued") :=
    (List.take_sublist limit _).subset hj1
  have hj3 : j ∈ jobs.filter fun jb => jb.status == "queued" :=
    (List.perm_insertionSort jobCreatedLe _).subset hj2
  exact ⟨j, (List.filter_sublist jobs).subset hj3, rfl⟩

/-- The batch claims `min limit (number of queued jobs)` rows. -/
theorem collectIds_length (limit : Nat) (jobs : List PJob) :
    (collectIds limit jobs).length
      = limit ⊓ (jobs.filter fun j => j.status == "queued").length := by
  unfold collectIds
  rw [List.length_map, (List.perm_insertionSort jobIdLe _).length_eq,
    List.length_take, (List.perm_insertionSort jobCreatedLe _).length_eq]

/-- C3: the claim states batch sequence numbers follow the jobs' creation
time.  Concretely false: two queued jobs where the row with the larger
primary key id is the older one — `row_number() OVER (ORDER BY id)`
gives the older job (id 2, created 5) seq 2 and the newer job (id 1,
created 10) seq 1. -/
theorem C3_collect_counterexample :
    collectBatch "b" 2
      [⟨1, 10, "queued", none, none, none, none, none, none⟩,
       ⟨2, 5, "queued", none, none, none, none, none, none⟩]
    = [⟨1, 10, "processing_batch", some "b", some 1, none, none, none, none⟩,
       ⟨2, 5, "processing_batch", some "b", some 2, none, none, none, none⟩]
    ∧ ¬ (∀ j₁ ∈ collectBatch "b" 2
          [⟨1, 10, "queued", none, none, none, none, none, none⟩,
           ⟨2, 5, "queued", none, none, none, none, none, none⟩],
         ∀ j₂ ∈ collectBatch "b" 2
          [⟨1, 10, "queued", none, none, none, none, none, none⟩,
           ⟨2, 5, "queued", none, none, none, none, none, none⟩],
          j₁.batchId = some "b" → j₂.batchId = some "b" →
          j₁.createdAt < j₂.createdAt → j₁.batchSeq.getD 0 < j₂.batchSeq.getD 0) := by
  refine ⟨by decide, by decide⟩

/-- C3 (amended): a collector claim assigns the batch dense sequence
numbers 1..k (k = min(limit, queued count)), ordered by the jobs'
primary-key id — the selection takes the oldest queued jobs, but the
numbering is `row_number() OVER (ORDER BY id)`, which agrees with
creation order only when ids happen to follow created_at. -/
theorem C3_collect_amended (bid : String) (limit : Nat) (jobs : List PJob)
    (hnd : (jobs.map (fun j => j.id)).Nodup)
    (hfresh : ∀ j ∈ jobs, j.batchId ≠ some bid) :
    (∀ j₁ ∈ collectBatch bid limit jobs, ∀ j₂ ∈ collectBatch bid limit jobs,
        j₁.batchId = some bid → j₂.batchId = some bid →
        j₁.id < j₂.id → j₁.batchSeq.getD 0 < j₂.batchSeq.getD 0)
    ∧ (((collectBatch bid limit jobs).filter (fun j => j.batchId == some bid)).filterMap
          (fun j => j.batchSeq)).Perm
        (List.range' 1 (limit ⊓ (jobs.filter fun j => j.status == "queued").length)) := by
  constructor
  · intro j₁ h₁ j₂ h₂ hb₁ hb₂ hlt
    unfold collectBatch at h₁ h₂
    rcases List.mem_map.mp h₁ with ⟨a, ha, rfl⟩
    rcases List.mem_map.mp h₂ with ⟨b, hbm, rfl⟩
    by_cases hca : ((collectIds limit jobs).contains a.id) = true
    · by_cases hcb : ((collectIds limit jobs).contains b.id) = true
      · rw [if_pos hca] at hlt ⊢
        rw [if_pos hcb] at hlt ⊢
        dsimp only at hlt ⊢
        exact Nat.succ_lt_succ
          (indexOf_lt_of_sorted_nodup _ (collectIds_sorted limit jobs)
            (collectIds_nodup limit jobs hnd) a.id b.id
            (by simpa using hca) (by simpa using hcb) hlt)
      · rw [if_neg hcb] at hb₂
        exact absurd hb₂ (hfresh b hbm)
    · rw [if_neg hca] at hb₁
      exact absurd hb₁ (hfresh a ha)
  · unfold collectBatch
    rw [List.filter_map]
    have hfc : ∀ j ∈ jobs,
        ((fun jb => jb.batchId == some bid) ∘ (fun jb =>
          if (collectIds limit jobs).contains jb.id then
            { jb with status := "processing_batch", batchId := some bid,
                      batchSeq := some ((collectIds limit jobs).indexOf jb.id + 1) }
          else jb)) j
          = (collectIds limit jobs).contains j.id := by
      intro j hj
      by_cases hc : j.id ∈ collectIds limit jobs
      · simp [Function.comp, hc]
      · simp [Function.comp, hc, hfresh j hj]
    rw [List.filter_congr hfc, List.filterMap_map]
    have hfm : ∀ j ∈ jobs.filter (fun jb => (collectIds limit jobs).contains jb.id),
        ((fun jb => jb.batchSeq) ∘ (fun jb =>
          if (collectIds limit jobs).contains jb.id then
            { jb with status := "processing_batch", batchId := some bid,
                      batchSeq := some ((collectIds limit jobs).indexOf jb.id + 1) }
          else jb)) j
          = some ((collectIds limit jobs).indexOf j.id + 1) := by
      intro j hj
      have hc : j.id ∈ collectIds limit jobs := by
        simpa using (List.mem_filter.mp hj).2
      simp [Function.comp, hc]
    rw [filterMap_eq_map_of_mem _ _ (fun j => (collectIds limit jobs).indexOf j.id + 1) hfm]
    have hsel : ((jobs.filter (fun jb => (collectIds limit jobs).contains jb.id)).map
        (fun j => j.id)).Perm (collectIds limit jobs) := by
      apply List.Subperm.antisymm
      · apply List.subperm_of_subset
        · exact ((List.filter_sublist jobs).map (fun j : PJob => j.id)).nodup hnd
        · intro x hx
          rcases List.mem_map.mp hx with ⟨j, hj, rfl⟩
          simpa using (List.mem_filter.mp hj).2
      · apply List.subperm_of_subset
        · exact collectIds_nodup limit jobs hnd
        · intro x hx
          rcases collectIds_sub limit jobs x hx with ⟨j, hj, rfl⟩
          exact List.mem_map.mpr ⟨j, List.mem_filter.mpr ⟨hj, by simpa using hx⟩, rfl⟩
    have hmm : (jobs.filter (fun jb => (collectIds limit jobs).contains jb.id)).map
          (fun j => (collectIds limit jobs).indexOf j.id + 1)
        = ((jobs.filter (fun jb => (collectIds limit jobs).contains jb.id)).map
            (fun j => j.id)).map (fun x => (collectIds limit jobs).indexOf x + 1) := by
      rw [List.map_map]
      rfl
    rw [hmm]
    refine (hsel.map (fun x => (collectIds limit jobs).indexOf x + 1)).trans ?_
    have hmm2 : (collectIds limit jobs).map (fun x => (collectIds limit jobs).indexOf x + 1)
        = ((collectIds limit jobs).map (fun x => (collectIds limit jobs).indexOf x)).map
            (fun n => n + 1) := by
      rw [List.map_map]
      rfl
    rw [hmm2, map_indexOf_eq_range _ (collectIds_nodup limit jobs hnd),
      collectIds_length, List.range'_eq_map_range]
    rw [List.map_congr_left (fun a _ => Nat.add_comm a 1)]

/-- Witness for C3 (amended) at a concrete two-job queue. -/
theorem C3_collect_amended_witness :
    (([⟨1, 10, "queued", none, none, none, none, none, none⟩,
       ⟨2, 5, "queued", none, none, none, none, none, none⟩] : List PJob).map
        (fun j => j.id)).Nodup
    ∧ (∀ j ∈ ([⟨1, 10, "queued", none, none, none, none, none, none⟩,
        ⟨2, 5, "queued", none, none, none, none, none, none⟩] : List PJob),
        j.batchId ≠ some "b")
    ∧ (((collectBatch "b" 2
          [⟨1, 10, "queued", none, none, none, none, none, none⟩,
           ⟨2, 5, "queued", none, none, none, none, none, none⟩]).filter
            (fun j => j.batchId == some "b")).filterMap (fun j => j.batchSeq)).Perm
        (List.range' 1 (2 ⊓ (([⟨1, 10, "queued", none, none, none, none, none, none⟩,
           ⟨2, 5, "queued", none, none, none, none, none, none⟩] : List PJob).filter
            fun j => j.status == "queued").length)) :=
  ⟨by decide, by decide,
    (C3_collect_amended "b" 2
      [⟨1, 10, "queued", none, none, none, none, none, none⟩,
       ⟨2, 5, "queued", none, none, none, none, none, none⟩]
      (by decide) (by decide)).2⟩

/-! ## C7 — token bucket rolling-window bound -/

namespace TokenBucket

/-- `refill` leaves the capacity unchanged. -/
theorem refill_capacity (b : TokenBucket) (u : ℚ) :
    (b.refill u).capacity = b.capacity := by
  unfold refill
  split <;> rfl

/-- `refill` leaves the refill rate unchanged. -/
theorem refill_rate (b : TokenBucket) (u : ℚ) :
    (b.refill u).refillPerMs = b.refillPerMs := by
  unfold refill
  split <;> rfl

/-- Refilling at a time not before the last refill leaves the clock at
that time (also when the elapsed time is zero). -/
theorem refill_lastRefillMs (b : TokenBucket) (u : ℚ) (hu : b.lastRefillMs ≤ u) :
    (b.refill u).lastRefillMs = u := by
  unfold refill
  split
  · next h => linarith
  · rfl

/-- A refill adds at most `elapsed * refillPerMs` tokens. -/
theorem refill_tokens_le (b : TokenBucket) (u : ℚ) (hu : b.lastRefillMs ≤ u) :
    (b.refill u).tokens ≤ b.tokens + (u - b.lastRefillMs) * b.refillPerMs := by
  unfold refill
  split
  · next h =>
    have h0 : u - b.lastRefillMs = 0 := by linarith
    rw [h0]
    simp
  · exact min_le_right _ _

/-- Refilling keeps the token count nonnegative. -/
theorem refill_tokens_nonneg (b : TokenBucket) (u : ℚ) (hu : b.lastRefillMs ≤ u)
    (hR : 0 ≤ b.refillPerMs) (h0 : 0 ≤ b.tokens) (hcap : 0 ≤ b.capacity) :
    0 ≤ (b.refill u).tokens := by
  unfold refill
  split
  · exact h0
  · exact le_min hcap (by nlinarith)

/-- Refilling never exceeds the capacity. -/
theorem refill_tokens_le_cap (b : TokenBucket) (u : ℚ) (hcap : b.tokens ≤ b.capacity) :
    (b.refill u).tokens ≤ b.capacity := by
  unfold refill
  split
  · exact hcap
  · exact min_le_left _ _

/-- A poll with enough tokens after the refill completes and debits. -/
theorem tryTake_succ (b : TokenBucket) (u n : ℚ) (hs : n ≤ (b.refill u).tokens) :
    b.tryTake u n = ({ b.refill u with tokens := (b.refill u).tokens - n }, true) := by
  unfold tryTake
  rw [if_pos hs]

/-- A poll without enough tokens only refills. -/
theorem tryTake_fail (b : TokenBucket) (u n : ℚ) (hs : ¬ n ≤ (b.refill u).tokens) :
    b.tryTake u n = (b.refill u, false) := by
  unfold tryTake
  rw [if_neg hs]

end TokenBucket

/-- No tokens are counted up to `t` along a trace whose polls all happen
after `t`. -/
theorem takenUpTo_zero_of_late (t w : ℚ) (b : TokenBucket) (evs : List (ℚ × ℚ))
    (hm : timesMono w evs) (hw : t < w) : takenUpTo t b evs = 0 := by
  induction evs generalizing b w with
  | nil => rfl
  | cons e evs ih =>
    obtain ⟨u, n⟩ := e
    obtain ⟨hwu, hm'⟩ := hm
    unfold takenUpTo
    rw [if_neg (fun h => absurd h.2 (not_le.mpr (lt_of_lt_of_le hw hwu)))]
    rw [ih u _ hm' (lt_of_lt_of_le hw hwu)]
    ring

/-- Budget bound: the tokens acquired up to time `t` cannot exceed the
current fill plus everything the refill can add until `t`. -/
theorem takenUpTo_le (t : ℚ) (b : TokenBucket) (evs : List (ℚ × ℚ))
    (hm : timesMono b.lastRefillMs evs) (ha : amountsNonneg evs)
    (hR : 0 ≤ b.refillPerMs) (h0 : 0 ≤ b.tokens) (hcap : 0 ≤ b.capacity)
    (hlt : b.lastRefillMs ≤ t) :
    takenUpTo t b evs ≤ b.tokens + (t - b.lastRefillMs) * b.refillPerMs := by
  induction evs generalizing b with
  | nil =>
    unfold takenUpTo
    have hx : 0 ≤ (t - b.lastRefillMs) * b.refillPerMs := mul_nonneg (by linarith) hR
    linarith
  | cons e evs ih =>
    obtain ⟨u, n⟩ := e
    obtain ⟨hu, hm'⟩ := hm
    obtain ⟨hn, ha'⟩ := ha
    have hb1last : (b.refill u).lastRefillMs = u := b.refill_lastRefillMs u hu
    have hb1tok : (b.refill u).tokens ≤ b.tokens + (u - b.lastRefillMs) * b.refillPerMs :=
      b.refill_tokens_le u hu
    have hb1nn : 0 ≤ (b.refill u).tokens := b.refill_tokens_nonneg u hu hR h0 hcap
    have hb1R : (b.refill u).refillPerMs = b.refillPerMs := b.refill_rate u
    have hb1cap : (b.refill u).capacity = b.capacity := b.refill_capacity u
    have hring : (u - b.lastRefillMs) * b.refillPerMs + (t - u) * b.refillPerMs
        = (t - b.lastRefillMs) * b.refillPerMs := by ring
    by_cases hut : u ≤ t
    · by_cases hs : n ≤ (b.refill u).tokens
      · unfold takenUpTo
        rw [TokenBucket.tryTake_succ b u n hs]
        dsimp only
        rw [if_pos ⟨rfl, hut⟩]
        have ihx := ih { b.refill u with tokens := (b.refill u).tokens - n }
          (hb1last.symm ▸ hm') ha' (hb1R.symm ▸ hR)
          (by dsimp only; linarith) (hb1cap.symm ▸ hcap) (hb1last.symm ▸ hut)
        dsimp only at ihx
        conv at ihx => rhs; rw [hb1last, hb1R]
        linarith
      · unfold takenUpTo
        rw [TokenBucket.tryTake_fail b u n hs]
        dsimp only
        rw [if_neg (fun h => by simpa using h.1)]
        have ihx := ih (b.refill u)
          (hb1last.symm ▸ hm') ha' (hb1R.symm ▸ hR) hb1nn
          (hb1cap.symm ▸ hcap) (hb1last.symm ▸ hut)
        conv at ihx => rhs; rw [hb1last, hb1R]
        linarith
    · unfold takenUpTo
      rw [if_neg (fun h => absurd h.2 hut)]
      rw [takenUpTo_zero_of_late t u ((b.tryTake u n).1) evs hm' (not_le.mp hut)]
      have hx : 0 ≤ (t - b.lastRefillMs) * b.refillPerMs := mul_nonneg (by linarith) hR
      linarith

/-- Restricting the count to a window only lowers it. -/
theorem takenInWindow_le_takenUpTo (s t : ℚ) (b : TokenBucket) (evs : List (ℚ × ℚ))
    (ha : amountsNonneg evs) :
    takenInWindow s t b evs ≤ takenUpTo t b evs := by
  induction evs generalizing b with
  | nil => exact le_refl _
  | cons e evs ih =>
    obtain ⟨u, n⟩ := e
    obtain ⟨hn, ha'⟩ := ha
    unfold takenInWindow takenUpTo
    have hind : (if (b.tryTake u n).2 = true ∧ s ≤ u ∧ u ≤ t then n else 0)
        ≤ (if (b.tryTake u n).2 = true ∧ u ≤ t then n else 0) := by
      by_cases h1 : (b.tryTake u n).2 = true ∧ s ≤ u ∧ u ≤ t
      · rw [if_pos h1, if_pos ⟨h1.1, h1.2.2⟩]
      · rw [if_neg h1]
        by_cases h2 : (b.tryTake u n).2 = true ∧ u ≤ t
        · rw [if_pos h2]; exact hn
        · rw [if_neg h2]
    have := ih (b.tryTake u n).1 ha'
    linarith

/-- Window bound for an arbitrary well-formed bucket state: the tokens
acquired inside `[s, t]` are at most one full burst (the capacity) plus
the refill accrued over the window. -/
theorem takenInWindow_le (s t : ℚ) (b : TokenBucket) (evs : List (ℚ × ℚ))
    (hm : timesMono b.lastRefillMs evs) (ha : amountsNonneg evs)
    (hR : 0 ≤ b.refillPerMs) (h0 : 0 ≤ b.tokens) (hcap0 : 0 ≤ b.capacity)
    (hcap : b.tokens ≤ b.capacity) (hst : s ≤ t) :
    takenInWindow s t b evs ≤ b.capacity + (t - s) * b.refillPerMs := by
  induction evs generalizing b with
  | nil =>
    unfold takenInWindow
    have hx : 0 ≤ (t - s) * b.refillPerMs := mul_nonneg (by linarith) hR
    linarith
  | cons e evs ih =>
    obtain ⟨u, n⟩ := e
    obtain ⟨hu, hm'⟩ := hm
    obtain ⟨hn, ha'⟩ := ha
    have hb1last : (b.refill u).lastRefillMs = u := b.refill_lastRefillMs u hu
    have hb1nn : 0 ≤ (b.refill u).tokens := b.refill_tokens_nonneg u hu hR h0 hcap0
    have hb1R : (b.refill u).refillPerMs = b.refillPerMs := b.refill_rate u
    have hb1cap : (b.refill u).capacity = b.capacity := b.refill_capacity u
    have hb1le : (b.refill u).tokens ≤ b.capacity := b.refill_tokens_le_cap u hcap
    by_cases hwin : s ≤ u ∧ u ≤ t
    · by_cases hs : n ≤ (b.refill u).tokens
      · unfold takenInWindow
        rw [TokenBucket.tryTake_succ b u n hs]
        dsimp only
        rw [if_pos ⟨rfl, hwin⟩]
        have htail : takenInWindow s t
            { b.refill u with tokens := (b.refill u).tokens - n } evs
            ≤ takenUpTo t { b.refill u with tokens := (b.refill u).tokens - n } evs :=
          takenInWindow_le_takenUpTo s t _ evs ha'
        have hup := takenUpTo_le t { b.refill u with tokens := (b.refill u).tokens - n }
          evs (hb1last.symm ▸ hm') ha' (hb1R.symm ▸ hR)
          (by dsimp only; linarith) (hb1cap.symm ▸ hcap0) (hb1last.symm ▸ hwin.2)
        dsimp only at hup
        conv at hup => rhs; rw [hb1last, hb1R]
        have hmul : (t - u) * b.refillPerMs ≤ (t - s) * b.refillPerMs :=
          mul_le_mul_of_nonneg_right (by linarith [hwin.1]) hR
        linarith
      · unfold takenInWindow
        rw [TokenBucket.tryTake_fail b u n hs]
        dsimp only
        rw [if_neg (fun h => by simpa using h.1)]
        have htail : takenInWindow s t (b.refill u) evs
            ≤ takenUpTo t (b.refill u) evs :=
          takenInWindow_le_takenUpTo s t _ evs ha'
        have hup := takenUpTo_le t (b.refill u)
          evs (hb1last.symm ▸ hm') ha' (hb1R.symm ▸ hR) hb1nn
          (hb1cap.symm ▸ hcap0) (hb1last.symm ▸ hwin.2)
        conv at hup => rhs; rw [hb1last, hb1R]
        have hmul : (t - u) * b.refillPerMs ≤ (t - s) * b.refillPerMs :=
          mul_le_mul_of_nonneg_right (by linarith [hwin.1]) hR
        linarith
    · unfold takenInWindow
      rw [if_neg (fun h => hwin ⟨h.2.1, h.2.2⟩)]
      have hb2 : 0 ≤ ((b.tryTake u n).1).tokens ∧
          ((b.tryTake u n).1).tokens ≤ b.capacity ∧
          ((b.tryTake u n).1).lastRefillMs = u ∧
          ((b.tryTake u n).1).refillPerMs = b.refillPerMs ∧
          ((b.tryTake u n).1).capacity = b.capacity := by
        by_cases hs : n ≤ (b.refill u).tokens
        · rw [TokenBucket.tryTake_succ b u n hs]
          dsimp only
          exact ⟨by linarith, by linarith, hb1last, hb1R, hb1cap⟩
        · rw [TokenBucket.tryTake_fail b u n hs]
          exact ⟨hb1nn, hb1le, hb1last, hb1R, hb1cap⟩
      have ihx := ih ((b.tryTake u n).1)
        (hb2.2.2.1.symm ▸ hm') ha'
        (hb2.2.2.2.1.symm ▸ hR) hb2.1
        (hb2.2.2.2.2.symm ▸ hcap0)
        (hb2.2.2.2.2.symm ▸ hb2.2.1)
      conv at ihx => rhs; rw [hb2.2.2.2.2, hb2.2.2.2.1]
      linarith

/-- C7: the claim states at most `rate_limit_capacity` tokens are taken
in any rolling window of `rate_limit_window_ms`.  Concretely false for
the code's bucket (capacity 3000, refill 3000/3000 per ms, initial fill
= capacity): taking the full initial burst at t = 0 and the refilled
1500 tokens at t = 1500 puts 4500 > 3000 acquisitions inside the single
window [0, 3000]. -/
theorem C7_rate_limit_counterexample :
    timesMono 0 [((0 : ℚ), (3000 : ℚ)), (1500, 1500)]
    ∧ amountsNonneg [((0 : ℚ), (3000 : ℚ)), (1500, 1500)]
    ∧ ¬ (takenInWindow 0 (0 + 3000) (TokenBucket.init 3000 (3000 / 3000) 0)
          [((0 : ℚ), (3000 : ℚ)), (1500, 1500)] ≤ 3000) := by
  refine ⟨⟨by norm_num, by norm_num, trivial⟩, ⟨by norm_num, by norm_num, trivial⟩, ?_⟩
  have h1 : takenInWindow 0 (0 + 3000) (TokenBucket.init 3000 (3000 / 3000) 0)
      [((0 : ℚ), (3000 : ℚ)), (1500, 1500)] = 4500 := by
    norm_num [takenInWindow, TokenBucket.tryTake, TokenBucket.refill, TokenBucket.init]
  rw [h1]
  norm_num

/-- C7 (amended): over any rolling window of length `W`, the tokens
acquired by a bucket constructed as `TokenBucket(C, C / W)` (initial
fill C) are at most `2·C` — one leading burst of up to the capacity plus
`W · (C/W) = C` of continuous refill; the capacity alone bounds only the
burst, not a window's total. -/
theorem C7_rate_limit_amended (C W t0 s : ℚ) (evs : List (ℚ × ℚ))
    (hm : timesMono t0 evs) (ha : amountsNonneg evs)
    (hC : 0 ≤ C) (hW : 0 < W) :
    takenInWindow s (s + W) (TokenBucket.init C (C / W) t0) evs ≤ 2 * C := by
  have hR : 0 ≤ C / W := div_nonneg hC hW.le
  have h := takenInWindow_le s (s + W) (TokenBucket.init C (C / W) t0) evs
    hm ha hR hC hC (le_refl _) (by linarith)
  have hcalc : C + (s + W - s) * (C / W) = 2 * C := by
    have hWne : W ≠ 0 := ne_of_gt hW
    field_simp
    ring
  have hcap2 : (TokenBucket.init C (C / W) t0).capacity = C := rfl
  have hrate2 : (TokenBucket.init C (C / W) t0).refillPerMs = C / W := rfl
  conv at h => rhs; rw [hcap2, hrate2]
  linarith [h, hcalc.le, hcalc.ge]

/-- Witness for C7 (amended) at the empty trace with a unit bucket. -/
theorem C7_rate_limit_amended_witness :
    timesMono 0 ([] : List (ℚ × ℚ)) ∧ amountsNonneg ([] : List (ℚ × ℚ))
    ∧ (0 : ℚ) ≤ 1 ∧ (0 : ℚ) < 1
    ∧ takenInWindow 0 (0 + 1) (TokenBucket.init 1 (1 / 1) 0) [] ≤ 2 * 1 :=
  ⟨trivial, trivial, by decide, by decide,
    C7_rate_limit_amended 1 1 0 0 [] trivial trivial (by decide) (by decide)⟩

/-! ## C9 — canonicalization depends only on structure -/

/-- `sortKeys` rewrites values but leaves each object's key sequence. -/
theorem sortKeysFields_keys (fs : List (String × Json)) :
    (sortKeysFields fs).map Prod.fst = fs.map Prod.fst := by
  induction fs with
  | nil => rfl
  | cons p fs ih =>
    obtain ⟨k, v⟩ := p
    simp [sortKeysFields, ih]

/-- The boolean duplicate-key check implies `Nodup` of the key list. -/
theorem nodupKeysB_nodup (fs : List (String × Json)) (h : nodupKeysB fs = true) :
    (fs.map Prod.fst).Nodup := by
  induction fs with
  | nil => exact List.nodup_nil
  | cons p fs ih =>
    obtain ⟨k, v⟩ := p
    unfold nodupKeysB at h
    rw [Bool.and_eq_true] at h
    refine List.nodup_cons.mpr ⟨?_, ih h.2⟩
    intro hmem
    have hc : (List.map Prod.fst fs).contains k = true := by simpa using hmem
    have h1 := h.1
    rw [hc] at h1
    simp at h1

/-- A successful key lookup exhibits the field. -/
theorem lookupKey_some_mem (k : String) (l : List (String × Json)) (v : Json)
    (h : lookupKey k l = some v) : (k, v) ∈ l := by
  induction l with
  | nil => simp [lookupKey] at h
  | cons p l ih =>
    obtain ⟨k', v'⟩ := p
    unfold lookupKey at h
    by_cases hb : (k' == k) = true
    · rw [if_pos hb] at h
      have hk : k' = k := by simpa using hb
      have hv : v' = v := by simpa using h
      subst hk
      subst hv
      exact List.mem_cons_self _ _
    · rw [if_neg hb] at h
      exact List.mem_cons_of_mem _ (ih h)

/-- Lookup misses keys that are absent. -/
theorem lookupKey_eq_none (k : String) (l : List (String × Json))
    (h : k ∉ l.map Prod.fst) : lookupKey k l = none := by
  induction l with
  | nil => rfl
  | cons p l ih =>
    obtain ⟨k', v'⟩ := p
    unfold lookupKey
    rw [if_neg, ih]
    · intro hm
      exact h (List.mem_cons_of_mem _ hm)
    · intro hb
      have : k' = k := by simpa using hb
      exact h (by simp [this])

/-- Looking up in the value-rewritten fields is `sortKeys` after lookup. -/
theorem sortKeysFields_lookup (k : String) (fs : List (String × Json)) :
    lookupKey k (sortKeysFields fs) = Option.map sortKeys (lookupKey k fs) := by
  induction fs with
  | nil => rfl
  | cons p fs ih =>
    obtain ⟨k', v⟩ := p
    unfold sortKeysFields lookupKey
    by_cases hb : (k' == k) = true
    · rw [if_pos hb, if_pos hb]
      rfl
    · rw [if_neg hb, if_neg hb]
      exact ih

/-- With duplicate-free keys, lookup is invariant under permutation. -/
theorem lookupKey_perm (k : String) {l l' : List (String × Json)}
    (hp : l.Perm l') (hn : (l.map Prod.fst).Nodup) :
    lookupKey k l = lookupKey k l' := by
  induction hp with
  | nil => rfl
  | cons x h ih =>
    obtain ⟨k', v⟩ := x
    unfold lookupKey
    by_cases hb : (k' == k) = true
    · rw [if_pos hb, if_pos hb]
    · rw [if_neg hb, if_neg hb]
      exact ih ((List.nodup_cons.mp (by simpa using hn)).2)
  | swap x y l =>
    obtain ⟨kx, vx⟩ := x
    obtain ⟨ky, vy⟩ := y
    have hxy : ky ≠ kx := by
      have hnn := hn
      simp only [List.map_cons, List.nodup_cons] at hnn
      intro h
      exact hnn.1 (by simp [h])
    by_cases hbx : (kx == k) = true <;> by_cases hby : (ky == k) = true
    · exfalso
      have h1 : kx = k := by simpa using hbx
      have h2 : ky = k := by simpa using hby
      exact hxy (h2.trans h1.symm)
    · simp only [lookupKey, if_pos hbx, if_neg hby]
    · simp only [lookupKey, if_neg hbx, if_pos hby]
    · simp only [lookupKey, if_neg hbx, if_neg hby]
  | trans p1 p2 ih1 ih2 =>
    rw [ih1 hn, ih2 ((p1.map Prod.fst).nodup hn)]

/-- `structEqFields` matches every field of the left object against the
right object's lookup. -/
theorem structEqFields_lookup (fs gs : List (String × Json))
    (h : structEqFields fs gs = true) :
    ∀ p ∈ fs, ∃ w, lookupKey p.1 gs = some w ∧ structEq p.2 w = true := by
  induction fs with
  | nil =>
    intro p hp
    cases hp
  | cons q fs ih =>
    obtain ⟨k, v⟩ := q
    unfold structEqFields at h
    rw [Bool.and_eq_true] at h
    intro p hp
    rcases List.mem_cons.mp hp with rfl | hp'
    · dsimp only
      rcases hw : lookupKey k gs with _ | w
      · rw [hw] at h
        simp at h
      · rw [hw] at h
        exact ⟨w, rfl, h.1⟩
    · exact ih h.2 p hp'

/-- Two field lists with the same key sequence, duplicate-free keys, and
pointwise equal value serializations serialize identically. -/
theorem serializeFields_congr : ∀ (sf sg : List (String × Json)),
    sf.map Prod.fst = sg.map Prod.fst →
    (∀ k, match lookupKey k sf, lookupKey k sg with
      | some v, some w => serialize v = serialize w
      | _, _ => True) →
    (sf.map Prod.fst).Nodup →
    serializeFields sf = serializeFields sg := by
  intro sf
  induction sf with
  | nil =>
    intro sg hk _ _
    have hnil : sg = [] := List.map_eq_nil_iff.mp hk.symm
    rw [hnil]
  | cons p sf' ihs =>
    intro sg hk hm hn
    obtain ⟨k0, v⟩ := p
    cases sg with
    | nil => simp at hk
    | cons q sg' =>
      obtain ⟨k0', w⟩ := q
      simp only [List.map_cons, List.cons.injEq] at hk
      obtain ⟨hk0, hk'⟩ := hk
      subst hk0
      have hself : (k0 == k0) = true := by simp
      have hhead : serialize v = serialize w := by
        have hx := hm k0
        simp only [lookupKey, if_pos hself] at hx
        exact hx
      have hn2 : (k0 :: sf'.map Prod.fst).Nodup := by simpa using hn
      have hn' := List.nodup_cons.mp hn2
      have htail : serializeFields sf' = serializeFields sg' := by
        apply ihs sg' hk' ?_ hn'.2
        intro k
        by_cases hbeq : (k0 == k) = true
        · have hke : k0 = k := by simpa using hbeq
          subst hke
          rw [lookupKey_eq_none k0 sf' hn'.1]
          cases lookupKey k0 sg' <;> trivial
        · have hx := hm k
          simp only [lookupKey, if_neg hbeq] at hx
          exact hx
      unfold serializeFields
      rw [hhead, htail]

/-- Structurally equal values have identical canonical serializations
(fuel-indexed induction on the value size). -/
theorem canonical_eq_of_structEq (N : Nat) :
    ∀ (a b : Json), sizeOf a < N → structEq a b = true →
      serialize (sortKeys a) = serialize (sortKeys b) := by
  induction N with
  | zero =>
    intro a b h
    omega
  | succ N ih =>
    intro a b hsz heq
    have hlist : ∀ (xs ys : List Json), sizeOf xs < N + 1 → structEqList xs ys = true →
        serializeList (sortKeysList xs) = serializeList (sortKeysList ys) := by
      intro xs
      induction xs with
      | nil =>
        intro ys _ hx
        cases ys with
        | nil => rfl
        | cons y ys' => simp [structEqList] at hx
      | cons x xs' ihl =>
        intro ys hs hx
        cases ys with
        | nil => simp [structEqList] at hx
        | cons y ys' =>
          unfold structEqList at hx
          rw [Bool.and_eq_true] at hx
          have hc : sizeOf (x :: xs') = 1 + sizeOf x + sizeOf xs' := by simp
          have hhead := ih x y (by omega) hx.1
          have htail := ihl ys' (by omega) hx.2
          simp only [sortKeysList, serializeList]
          rw [hhead, htail]
    cases a with
    | null =>
      cases b <;> simp [structEq] at heq
      rfl
    | bool ba =>
      cases b <;> simp [structEq] at heq
      rw [heq]
    | num na =>
      cases b <;> simp [structEq] at heq
      rw [heq]
    | str sa =>
      cases b <;> simp [structEq] at heq
      rw [heq]
    | arr xs =>
      cases b with
      | arr ys =>
        have hx : structEqList xs ys = true := by simpa [structEq] using heq
        have hc : sizeOf (Json.arr xs) = 1 + sizeOf xs := by simp
        have hl := hlist xs ys (by omega) hx
        simp only [sortKeys, serialize]
        rw [hl]
      | null => simp [structEq] at heq
      | bool bb => simp [structEq] at heq
      | num nb => simp [structEq] at heq
      | str sb => simp [structEq] at heq
      | obj gs => simp [structEq] at heq
    | obj fs =>
      cases b with
      | obj gs =>
        have hq : nodupKeysB fs = true ∧ nodupKeysB gs = true ∧ fs.length = gs.length
            ∧ structEqFields fs gs = true := by
          have hx := heq
          simp only [structEq, Bool.and_eq_true] at hx
          refine ⟨hx.1.1.1, hx.1.1.2, ?_, hx.2⟩
          simpa using hx.1.2
        obtain ⟨hnf, hng, hlen, hsef⟩ := hq
        have nf := nodupKeysB_nodup fs hnf
        have ng := nodupKeysB_nodup gs hng
        have hsub : fs.map Prod.fst ⊆ gs.map Prod.fst := by
          intro k hk
          rcases List.mem_map.mp hk with ⟨p, hp, rfl⟩
          rcases structEqFields_lookup fs gs hsef p hp with ⟨w, hw, _⟩
          exact List.mem_map.mpr ⟨(p.1, w), lookupKey_some_mem _ _ _ hw, rfl⟩
        have hpkeys : (fs.map Prod.fst).Perm (gs.map Prod.fst) :=
          (List.subperm_of_subset nf hsub).perm_of_length_le
            (by rw [List.length_map, List.length_map]; omega)
        have hkf : ((List.insertionSort fieldLe (sortKeysFields fs)).map Prod.fst).Perm
            (fs.map Prod.fst) := by
          have hp := (List.perm_insertionSort fieldLe (sortKeysFields fs)).map Prod.fst
          rwa [sortKeysFields_keys] at hp
        have hkg : ((List.insertionSort fieldLe (sortKeysFields gs)).map Prod.fst).Perm
            (gs.map Prod.fst) := by
          have hp := (List.perm_insertionSort fieldLe (sortKeysFields gs)).map Prod.fst
          rwa [sortKeysFields_keys] at hp
        have hsorted_f : List.Sorted keyRel
            ((List.insertionSort fieldLe (sortKeysFields fs)).map Prod.fst) :=
          List.Pairwise.map Prod.fst (fun a b h => h)
            (List.sorted_insertionSort fieldLe _)
        have hsorted_g : List.Sorted keyRel
            ((List.insertionSort fieldLe (sortKeysFields gs)).map Prod.fst) :=
          List.Pairwise.map Prod.fst (fun a b h => h)
            (List.sorted_insertionSort fieldLe _)
        have hkeq : (List.insertionSort fieldLe (sortKeysFields fs)).map Prod.fst
            = (List.insertionSort fieldLe (sortKeysFields gs)).map Prod.fst :=
          List.eq_of_perm_of_sorted (hkf.trans (hpkeys.trans hkg.symm))
            hsorted_f hsorted_g
        have hnsf : ((List.insertionSort fieldLe (sortKeysFields fs)).map Prod.fst).Nodup :=
          hkf.symm.nodup nf
        have hnsg : ((List.insertionSort fieldLe (sortKeysFields gs)).map Prod.fst).Nodup :=
          hkg.symm.nodup ng
        have hlookf : ∀ k, lookupKey k (List.insertionSort fieldLe (sortKeysFields fs))
            = Option.map sortKeys (lookupKey k fs) := by
          intro k
          rw [lookupKey_perm k (List.perm_insertionSort fieldLe (sortKeysFields fs)) hnsf,
            sortKeysFields_lookup]
        have hlookg : ∀ k, lookupKey k (List.insertionSort fieldLe (sortKeysFields gs))
            = Option.map sortKeys (lookupKey k gs) := by
          intro k
          rw [lookupKey_perm k (List.perm_insertionSort fieldLe (sortKeysFields gs)) hnsg,
            sortKeysFields_lookup]
        have hmatch : ∀ k,
            match lookupKey k (List.insertionSort fieldLe (sortKeysFields fs)),
              lookupKey k (List.insertionSort fieldLe (sortKeysFields gs)) with
            | some v, some w => serialize v = serialize w
            | _, _ => True := by
          intro k
          rw [hlookf k, hlookg k]
          rcases hf : lookupKey k fs with _ | v0
          · trivial
          · rcases hg : lookupKey k gs with _ | w0
            · trivial
            · rcases structEqFields_lookup fs gs hsef (k, v0)
                (lookupKey_some_mem _ _ _ hf) with ⟨w1, hw1, hsvw⟩
              have hww : w1 = w0 := by
                have hx : lookupKey k gs = some w1 := hw1
                rw [hg] at hx
                exact ((Option.some.injEq _ _).mp hx).symm
              have hmem : (k, v0) ∈ fs := lookupKey_some_mem _ _ _ hf
              have hs1 : sizeOf (k, v0) < sizeOf fs := List.sizeOf_lt_of_mem hmem
              have hs2 : sizeOf (k, v0) = 1 + sizeOf k + sizeOf v0 := by simp
              have hs3 : sizeOf (Json.obj fs) = 1 + sizeOf fs := by simp
              rw [← hww]
              exact ih v0 w1 (by omega) hsvw
        have hfields := serializeFields_congr _ _ hkeq hmatch hnsf
        simp only [sortKeys, serialize]
        rw [hfields]
      | null => simp [structEq] at heq
      | bool bb => simp [structEq] at heq
      | num nb => simp [structEq] at heq
      | str sb => simp [structEq] at heq
      | arr ys => simp [structEq] at heq

/-- C9: for any two structurally equal JSON-compatible values,
`canonicalizeJSON` yields identical byte strings and `hashJSON` equal
digests — the canonical form is independent of key insertion order. -/
theorem C9_canonicalization (v₁ v₂ : Json) (h : structEq v₁ v₂ = true) :
    canonicalizeJSON v₁ = canonicalizeJSON v₂
    ∧ ∀ sha256, hashJSON sha256 v₁ = hashJSON sha256 v₂ := by
  have hc : serialize (sortKeys v₁) = serialize (sortKeys v₂) :=
    canonical_eq_of_structEq (sizeOf v₁ + 1) v₁ v₂ (by omega) h
  refine ⟨hc, fun sha256 => ?_⟩
  unfold hashJSON canonicalizeJSON
  rw [hc]

/-- Witness for C9 at two objects with opposite key insertion orders. -/
theorem C9_canonicalization_witness :
    structEq (.obj [("b", .num 1), ("a", .str "x")])
      (.obj [("a", .str "x"), ("b", .num 1)]) = true
    ∧ canonicalizeJSON (.obj [("b", .num 1), ("a", .str "x")])
        = canonicalizeJSON (.obj [("a", .str "x"), ("b", .num 1)]) :=
  ⟨by decide, (C9_canonicalization _ _ (by decide)).1⟩
